/-
Verification of the ECG analysis pipeline (src/processing.py) against its
natural-language specification.

The Python source operates on numpy float arrays.  This development embeds
the pipeline shallowly:

* signal samples and derived quantities are exact rationals (ℚ); the only
  irrational operations of the source, `np.sqrt` and `np.std`, are modelled
  with `Real.sqrt` over ℝ;
* numpy's NaN (which `np.mean` produces on an empty array, with a
  RuntimeWarning) is modelled by `Option`: `none` is NaN, `some q` a number;
* Python machine integers are `Int`/`Nat`; `int(0.150 * fs)` and
  `int(0.3 * fs)` truncate towards zero, which for positive integer `fs`
  equals natural-number division (`3 * fs / 20`, `3 * fs / 10`) — the IEEE
  double rounding of `0.150 * fs` and `0.3 * fs` never crosses an integer
  boundary for any physically meaningful `fs`, because the fractional parts
  of `3*fs/20` and `3*fs/10` are multiples of 1/20 while the relative float
  error is ~1e-16;
* fallible numpy/scipy calls (`np.convolve` on empty inputs,
  `scipy.signal.find_peaks` with `distance < 1`, `scipy.signal.filtfilt` on
  signals not longer than its padding) are modelled with `Except`.
-/
import Mathlib

namespace ECG

/-! ### Generic list helpers (numpy primitives) -/

/-- `np.diff`: first difference, `out[i] = l[i+1] - l[i]`, length one less
than the input. -/
def listDiff {α : Type} [Sub α] (l : List α) : List α :=
  l.tail.zipWith (fun a b => a - b) l

/-- `np.mean`: arithmetic mean.  On an empty array numpy returns NaN (with a
RuntimeWarning), modelled here as `none`. -/
def npMean (l : List ℚ) : Option ℚ :=
  if l = [] then none else some (l.sum / l.length)

/-- The mean-square-deviation step of `np.std`: numpy computes
`mean((x - mean(x))^2)`; `np.std` is the square root of this.  NaN (empty
input) is modelled as `none`. -/
def npVar (l : List ℚ) : Option ℚ :=
  (npMean l).bind (fun m => npMean (l.map (fun x => (x - m) ^ 2)))

/-- Python's `round(x, 2)`: rounding to two decimal places, modelled as exact
rounding of `100 * x` to the nearest integer (ties away from the midpoint are
irrelevant to every claim checked here). -/
noncomputable def round2 (x : ℝ) : ℝ :=
  ((round (x * 100) : ℤ) : ℝ) / 100

/-! ### HRV estimator (`calculate_hrv_metrics`) -/

/-- The metric dictionary returned by `calculate_hrv_metrics`; a `none` field
is numpy's NaN. -/
structure HRVMetrics where
  mean_rr : Option ℝ
  sdnn : Option ℝ
  rmssd : Option ℝ

/-- `rr_intervals_ms` of the source: `(np.diff(r_peaks) / fs) * 1000`. -/
def rr_intervals_ms (r_peaks : List ℤ) (fs : ℤ) : List ℚ :=
  (listDiff r_peaks).map (fun (d : ℤ) => (d : ℚ) / (fs : ℚ) * 1000)

/-- Embedding of `calculate_hrv_metrics` (src/processing.py).  With fewer
than 2 peaks it returns the all-zero metric set; otherwise it computes the
mean, `np.std` (population convention) and the root mean square of the
successive differences of the RR intervals, each rounded to 2 decimals.
`np.sqrt`/`np.std` are modelled with `Real.sqrt`; the NaN that
`np.mean(np.diff(x))` produces when `x` has a single element is `none`. -/
noncomputable def calculate_hrv_metrics (r_peaks : List ℤ) (fs : ℤ) : HRVMetrics :=
  if r_peaks.length < 2 then
    { mean_rr := some 0, sdnn := some 0, rmssd := some 0 }
  else
    let rr := rr_intervals_ms r_peaks fs
    let mean_rr : Option ℝ := (npMean rr).map (fun (q : ℚ) => (q : ℝ))
    let sdnn : Option ℝ := (npVar rr).map (fun (v : ℚ) => Real.sqrt (v : ℝ))
    let successive_diffs := listDiff rr
    let rmssd : Option ℝ :=
      (npMean (successive_diffs.map (fun d => d ^ 2))).map
        (fun (m : ℚ) => Real.sqrt (m : ℝ))
    { mean_rr := mean_rr.map round2
      sdnn := sdnn.map round2
      rmssd := rmssd.map round2 }

/-! ### Spec-side HRV definitions (§4.3 of the spec), for refinement claims -/

/-- Spec formula: `intervals_ms[k] = (beat_indices[k+1] - beat_indices[k]) / fs * 1000`. -/
def specIntervalsMs (beat_indices : List ℤ) (fs : ℤ) : List ℚ :=
  (List.range (beat_indices.length - 1)).map
    (fun k => ((beat_indices.getD (k + 1) 0 - beat_indices.getD k 0 : ℤ) : ℚ) / (fs : ℚ) * 1000)

/-- Spec formula: `mean_rr = average(intervals_ms)`. -/
def specMean (l : List ℚ) : ℚ := l.sum / l.length

/-- Spec formula: the population variance, dividing by N (not N-1). -/
def specVar (l : List ℚ) : ℚ :=
  (l.map (fun x => (x - specMean l) ^ 2)).sum / l.length

/-- Spec formula: `sdnn = population standard deviation(intervals_ms)`. -/
noncomputable def specPopStd (l : List ℚ) : ℝ := Real.sqrt ((specVar l : ℚ) : ℝ)

/-! ### Beat detector (`find_r_peaks`): differentiate, square, integrate -/

/-- `diff_signal = np.diff(signal)` of the source. -/
def diff_signal (signal : List ℚ) : List ℚ := listDiff signal

/-- `squared_signal = diff_signal ** 2` of the source. -/
def squared_signal (signal : List ℚ) : List ℚ :=
  (diff_signal signal).map (fun d => d ^ 2)

/-- `window_size = int(0.150 * fs)` of the source: truncation of `0.150*fs`,
which for positive integer `fs` is `⌊3*fs/20⌋` (see the header note on IEEE
rounding). -/
def window_size (fs : ℕ) : ℕ := 3 * fs / 20

/-- `min_distance = int(0.3 * fs)` of the source: truncation of `0.3*fs`,
i.e. `⌊3*fs/10⌋` for positive integer `fs`. -/
def min_distance (fs : ℕ) : ℕ := 3 * fs / 10

/-- `np.ones(w) / w`, the rectangular moving-average kernel. -/
def movAvgKernel (w : ℕ) : List ℚ := List.replicate w ((w : ℚ))⁻¹

/-- Full discrete convolution (`np.convolve(a, v)` before mode slicing):
`out[k] = Σ_j a[j] * v[k-j]`, length `len(a) + len(v) - 1`. -/
def convFull (a v : List ℚ) : List ℚ :=
  (List.range (a.length + v.length - 1)).map (fun k =>
    ((List.range a.length).map (fun j =>
      if j ≤ k ∧ k - j < v.length then a.getD j 0 * v.getD (k - j) 0 else 0)).sum)

/-- `np.convolve(a, v, mode='same')`: the centred slice of the full
convolution, of length `max(len(a), len(v))`, starting at offset
`(min(len(a), len(v)) - 1) / 2`. -/
def convSame (a v : List ℚ) : List ℚ :=
  ((convFull a v).drop ((min a.length v.length - 1) / 2)).take (max a.length v.length)

/-- `integrated_signal = np.convolve(squared_signal, np.ones(w)/w, mode='same')`
of the source. -/
def integrated_signal (signal : List ℚ) (fs : ℕ) : List ℚ :=
  convSame (squared_signal signal) (movAvgKernel (window_size fs))

/-- `np.mean` over the (nonempty along the success path) envelope, as a plain
rational. -/
def envMean (l : List ℚ) : ℚ := l.sum / l.length

/-- The radicand of `np.std` over the envelope: `mean((x - mean(x))^2)`. -/
def envVar (l : List ℚ) : ℚ := (l.map (fun x => (x - envMean l) ^ 2)).sum / l.length

/-- `peak_threshold = np.mean(integrated_signal) + 2 * np.std(integrated_signal)`
of the source. -/
noncomputable def peak_threshold (env : List ℚ) : ℝ :=
  ((envMean env : ℚ) : ℝ) + 2 * Real.sqrt ((envVar env : ℚ) : ℝ)

/-! ### `scipy.signal.find_peaks` (local maxima, height filter, distance filter)

`find_peaks` first collects plateau midpoints of strict local maxima
(`_local_maxima_1d`), then drops those below `height`, then greedily removes
peaks closer than `distance` to a higher-priority kept peak
(`_select_by_peak_distance`, processing peaks from highest to lowest value). -/

/-- The inner scan of `_local_maxima_1d`: starting at `j`, the first index
`j'` with `j' ≥ len(x) - 1` or `x[j'] ≠ val`.  `fuel` bounds the recursion;
`iAhead` supplies `fuel = len(x)`, which is always sufficient because the scan
stops at `len(x) - 1` at the latest. -/
def iAheadAux (x : List ℚ) (val : ℚ) : ℕ → ℕ → ℕ
  | 0, j => j
  | fuel + 1, j =>
    if x.length - 1 ≤ j ∨ x.getD j 0 ≠ val then j else iAheadAux x val fuel (j + 1)

/-- `i_ahead` of `_local_maxima_1d`: end of the plateau of value `val`
starting at `start`. -/
def iAhead (x : List ℚ) (val : ℚ) (start : ℕ) : ℕ :=
  iAheadAux x val x.length start

/-- `_local_maxima_1d`: for every interior index `l` that starts a strictly
rising plateau (`x[l-1] < x[l]`) whose run of equal values ends with a strict
fall (`x[i_ahead] < x[l]`), emit the plateau midpoint
`(l + (i_ahead - 1)) / 2`.  The C scan of scipy visits exactly these `l`
(indices inside a plateau fail the rising test, so the scan's jump over the
plateau is only an optimisation). -/
def localMaxima (x : List ℚ) : List ℕ :=
  (List.range x.length).filterMap (fun l =>
    if 1 ≤ l ∧ l < x.length - 1 ∧ x.getD (l - 1) 0 < x.getD l 0 then
      if x.getD (iAhead x (x.getD l 0) (l + 1)) 0 < x.getD l 0 then
        some ((l + (iAhead x (x.getD l 0) (l + 1) - 1)) / 2)
      else none
    else none)

/-- Decidable form of the height test `mean + 2*std ≤ value`: over the reals,
`μ + 2*√v ≤ x` holds iff `μ ≤ x` and `4*v ≤ (x-μ)^2` (see
`heightCondB_iff`). -/
def heightCondB (μ v x : ℚ) : Bool :=
  decide (μ ≤ x) && decide (4 * v ≤ (x - μ) ^ 2)

/-- Stable insertion of index `i` into an index list sorted by `p`-value
(ties keep the earlier index first), the building block of `argsort`. -/
def insertIdx (p : List ℚ) (i : ℕ) : List ℕ → List ℕ
  | [] => [i]
  | j :: rest => if p.getD i 0 < p.getD j 0 then i :: j :: rest else j :: insertIdx p i rest

/-- `np.argsort(p)`: indices of `p` sorted by value, ascending.  Modelled as a
stable sort; numpy's default introsort may order exact ties differently, which
no claim here depends on (all counterexamples use distinct peak heights). -/
def argsort (p : List ℚ) : List ℕ :=
  (List.range p.length).foldl (fun acc i => insertIdx p i acc) []

/-- The leftward while loop of `_select_by_peak_distance`: walking `k` down
from `j - 1`, clear `keep[k]` while `peaks[j] - peaks[k] < distance`
(equivalently `peaks[j] < peaks[k] + distance`). -/
def markLeft (peaks : List ℕ) (dist pj : ℕ) : ℕ → List Bool → List Bool
  | 0, keep => if pj < peaks.getD 0 0 + dist then keep.set 0 false else keep
  | k + 1, keep =>
    if pj < peaks.getD (k + 1) 0 + dist then
      markLeft peaks dist pj k (keep.set (k + 1) false)
    else keep

/-- The rightward while loop of `_select_by_peak_distance`: walking `k` up
from `j + 1`, clear `keep[k]` while `k < len(peaks)` and
`peaks[k] - peaks[j] < distance`.  `fuel = len(peaks)` always suffices. -/
def markRight (peaks : List ℕ) (dist pj : ℕ) : ℕ → ℕ → List Bool → List Bool
  | 0, _, keep => keep
  | fuel + 1, k, keep =>
    if k < peaks.length ∧ peaks.getD k 0 < pj + dist then
      markRight peaks dist pj fuel (k + 1) (keep.set k false)
    else keep

/-- One iteration of the main loop of `_select_by_peak_distance`, processing
the peak of index `j`: skipped if already discarded, otherwise discards the
still-kept neighbours within `distance` on both sides. -/
def sbpdStep (peaks : List ℕ) (dist : ℕ) (keep : List Bool) (j : ℕ) : List Bool :=
  if keep.getD j false = false then keep
  else
    let pj := peaks.getD j 0
    let keep1 := match j with
      | 0 => keep
      | j' + 1 => markLeft peaks dist pj j' keep
    markRight peaks dist pj peaks.length (j + 1) keep1

/-- The main loop of `_select_by_peak_distance`, processing peaks from the
highest priority down (scipy iterates `argsort(priority)` in reverse). -/
def sbpdProcess (peaks : List ℕ) (dist : ℕ) : List ℕ → List Bool → List Bool
  | [], keep => keep
  | j :: rest, keep => sbpdProcess peaks dist rest (sbpdStep peaks dist keep j)

/-- `_select_by_peak_distance(peaks, priority, distance)`: the boolean keep
mask. -/
def selectByPeakDistance (peaks : List ℕ) (priority : List ℚ) (dist : ℕ) : List Bool :=
  sbpdProcess peaks dist (argsort priority).reverse (List.replicate peaks.length true)

/-- Boolean-mask indexing `peaks[keep]`. -/
def applyKeep (peaks : List ℕ) (keep : List Bool) : List ℕ :=
  (peaks.zip keep).filterMap (fun p => if p.2 then some p.1 else none)

/-- The local maxima that survive the height filter (scipy applies `height`
before `distance`).  `μ` and `v` are the envelope mean and the squared
envelope standard deviation. -/
def find_peaks_candidates (x : List ℚ) (μ v : ℚ) : List ℕ :=
  (localMaxima x).filter (fun m => heightCondB μ v (x.getD m 0))

/-- `scipy.signal.find_peaks(x, height=μ+2*√v, distance=dist)`, computable
form (the height test in its decidable guise `heightCondB`). -/
def find_peaksC (x : List ℚ) (μ v : ℚ) (dist : ℕ) : List ℕ :=
  let c := find_peaks_candidates x μ v
  applyKeep c (selectByPeakDistance c (c.map (fun m => x.getD m 0)) dist)

/-- `scipy.signal.find_peaks(x, height=h, distance=dist)` with a real-valued
height, exactly as the source passes `peak_threshold`. -/
noncomputable def find_peaks (x : List ℚ) (h : ℝ) (dist : ℕ) : List ℕ :=
  let c := (localMaxima x).filter (fun m => decide (h ≤ ((x.getD m 0 : ℚ) : ℝ)))
  applyKeep c (selectByPeakDistance c (c.map (fun m => x.getD m 0)) dist)

/-- Embedding of `find_r_peaks` (src/processing.py): differentiate, square,
integrate with a 150 ms rectangular window, then `find_peaks` with the global
threshold `mean + 2*std` and the 300 ms refractory distance.  The error
branches model the `ValueError`s numpy/scipy raise: `np.convolve` rejects an
empty input array, `find_peaks` rejects `distance < 1`. -/
noncomputable def find_r_peaks (signal : List ℚ) (fs : ℕ) : Except String (List ℕ) :=
  if squared_signal signal = [] then
    .error "np.convolve: a cannot be empty"
  else if window_size fs = 0 then
    .error "np.convolve: v cannot be empty"
  else if min_distance fs < 1 then
    .error "find_peaks: distance must be greater or equal to 1"
  else
    let env := integrated_signal signal fs
    .ok (find_peaks env (peak_threshold env) (min_distance fs))

/-- Computable twin of `find_r_peaks` (height test in decidable form); proved
equal to `find_r_peaks` in `find_r_peaks_eqC`, and used to evaluate concrete
counterexamples by kernel reduction. -/
def find_r_peaksC (signal : List ℚ) (fs : ℕ) : Except String (List ℕ) :=
  if squared_signal signal = [] then
    .error "np.convolve: a cannot be empty"
  else if window_size fs = 0 then
    .error "np.convolve: v cannot be empty"
  else if min_distance fs < 1 then
    .error "find_peaks: distance must be greater or equal to 1"
  else
    let env := integrated_signal signal fs
    .ok (find_peaksC env (envMean env) (envVar env) (min_distance fs))

/-! ### Spec-side beat detector definitions (§4.2 of the spec) -/

/-- Spec formula: the refractory distance `round(0.3 * fs)` (the source uses
`int(0.3 * fs)`, truncation). -/
def specRefractory (fs : ℕ) : ℤ := round ((0.3 : ℚ) * (fs : ℚ))

/-- Spec formula: the integration window width `round(0.150 * fs)` (the
source uses `int(0.150 * fs)`, truncation). -/
def specWindow (fs : ℕ) : ℤ := round ((0.150 : ℚ) * (fs : ℚ))

/-- Spec-side detector for the re-mapping refinement claim: the spec requires
the final indices to be re-mapped from the differenced signal's index space to
the conditioned signal's index space, compensating the 1-sample shift of
differentiation; the re-map adds that one sample back to each index. -/
noncomputable def find_r_peaks_remapped (signal : List ℚ) (fs : ℕ) :
    Except String (List ℕ) :=
  (find_r_peaks signal fs).map (List.map (fun p => p + 1))

/-! ### Signal conditioner (`filter_signal` via `scipy.signal.filtfilt`)

`filter_signal` designs a Butterworth band-pass filter with `scipy.signal.butter`
and applies it with `scipy.signal.filtfilt` (zero-phase, default `method='pad'`,
`padtype='odd'`, `padlen = 3 * max(len(a), len(b))`).  The coefficient design
(`butter`) is pure floating-point numerics; it is not modelled — the
coefficient vectors `b`, `a` and the unit initial state `ziUnit`
(`scipy.signal.lfilter_zi(b, a)`, which `filtfilt` scales by the first padded
sample) enter as parameters, and every property proved below holds for all
values of these parameters, hence in particular for the ones `butter` and
`lfilter_zi` produce. -/

/-- The per-sample loop of `scipy.signal.lfilter` in direct form II
transposed: `y[n] = b[0]*x[n] + z[0]` and
`z[i] = b[i+1]*x[n] + z[i+1] - a[i+1]*y[n]` on a state vector of length
`max(len(b), len(a)) - 1` (coefficients already normalised by `a[0]`). -/
def lfilterGo (bh ah : List ℚ) (K : ℕ) : List ℚ → List ℚ → List ℚ
  | [], _ => []
  | xn :: rest, z =>
    let y := bh.getD 0 0 * xn + z.getD 0 0
    let z' := (List.range K).map (fun i =>
      bh.getD (i + 1) 0 * xn + z.getD (i + 1) 0 - ah.getD (i + 1) 0 * y)
    y :: lfilterGo bh ah K rest z'

/-- `scipy.signal.lfilter(b, a, x, zi=zi)`: normalises the coefficients by
`a[0]` and runs the transposed direct form II recursion. -/
def lfilter (b a x zi : List ℚ) : List ℚ :=
  let a0 := a.getD 0 0
  lfilterGo (b.map (fun c => c / a0)) (a.map (fun c => c / a0))
    (max b.length a.length - 1) x zi

/-- `scipy.signal.odd_ext(x, p)`: odd extension by `p` samples on both ends,
reflecting through the edge values (`2*x[0] - x[p-i]` on the left,
`2*x[last] - x[last-1-i]` on the right). -/
def oddExt (x : List ℚ) (p : ℕ) : List ℚ :=
  ((List.range p).map (fun i => 2 * x.getD 0 0 - x.getD (p - i) 0)) ++ x ++
    ((List.range p).map (fun i => 2 * x.getD (x.length - 1) 0 - x.getD (x.length - 2 - i) 0))

/-- `scipy.signal.filtfilt(b, a, x)` with the default edge handling:
odd-extend by `padlen = 3 * max(len(a), len(b))` (rejecting signals not longer
than that, as scipy does with a `ValueError`), filter forward with initial
state `ziUnit * ext[0]`, reverse, filter again with initial state scaled by
the new first sample, reverse, and slice the original extent back out. -/
def filtfilt (b a ziUnit x : List ℚ) : Except String (List ℚ) :=
  let padlen := 3 * max b.length a.length
  if x.length ≤ padlen then
    .error "The length of the input vector x must be greater than padlen"
  else
    let ext := oddExt x padlen
    let y1 := lfilter b a ext (ziUnit.map (fun c => c * ext.getD 0 0))
    let y1r := y1.reverse
    let y2 := lfilter b a y1r (ziUnit.map (fun c => c * y1r.getD 0 0))
    .ok (((y2.reverse).drop padlen).take x.length)

/-- Embedding of `filter_signal` (src/processing.py): the function performs no
validation of its own and applies `filtfilt` to the signal; the Butterworth
coefficients computed by `butter(order, [low/nyq, high/nyq], btype='band')`
enter as the parameters `b`, `a` (see the section comment). -/
def filter_signal (b a ziUnit : List ℚ) (signal : List ℚ) : Except String (List ℚ) :=
  filtfilt b a ziUnit signal

/-! ### Concrete input signals used by counterexamples and witnesses -/

/-- 33 samples; at `fs = 12` (window 1, distance 3) its detection envelope is
zero except for strict local maxima of heights 4 and 9 at indices 10 and 13. -/
def sig33 : List ℚ := List.replicate 11 0 ++ List.replicate 3 2 ++ List.replicate 19 5

/-- 46 samples; at `fs = 10` (window 1, distance 3) its detection envelope is
zero except for strict local maxima of heights 4, 25/4 and 9 at indices
20, 22 and 24. -/
def sig46 : List ℚ :=
  List.replicate 21 0 ++ List.replicate 2 2 ++ List.replicate 2 (9 / 2) ++
    List.replicate 21 (15 / 2)

/-- A 10-sample flatline. -/
def flat10 : List ℚ := List.replicate 10 3

end ECG

deriving instance DecidableEq for Except

namespace ECG

/-! ## Basic lemmas -/

theorem getD_lt {α : Type} (d : α) (l : List α) (i : ℕ) (h : i < l.length) :
    l.getD i d = l[i] := by
  simp [List.getD_eq_getElem?_getD, List.getElem?_eq_getElem h]

theorem listDiff_length {α : Type} [Sub α] (l : List α) :
    (listDiff l).length = l.length - 1 := by
  simp [listDiff]

theorem rr_intervals_length (b : List ℤ) (fs : ℤ) :
    (rr_intervals_ms b fs).length = b.length - 1 := by
  simp [rr_intervals_ms, listDiff_length]

/-- The source's `np.diff`-based interval computation agrees with the spec's
indexwise formula. -/
theorem rr_intervals_eq_spec (b : List ℤ) (fs : ℤ) :
    rr_intervals_ms b fs = specIntervalsMs b fs := by
  apply List.ext_getElem
  · rw [rr_intervals_length]
    simp only [specIntervalsMs, List.length_map, List.length_range]
  · intro n h1 h2
    have hlen : n < b.length - 1 := by
      have := rr_intervals_length b fs
      omega
    simp only [rr_intervals_ms, specIntervalsMs, listDiff, List.getElem_map,
      List.getElem_zipWith, List.getElem_range, List.getElem_tail]
    rw [getD_lt (0 : ℤ) b (n + 1) (by omega), getD_lt (0 : ℤ) b n (by omega)]

theorem npMean_some {l : List ℚ} (h : l ≠ []) : npMean l = some (specMean l) := by
  simp [npMean, specMean, h]

theorem npVar_some {l : List ℚ} (h : l ≠ []) : npVar l = some (specVar l) := by
  have h2 : l.map (fun x => (x - specMean l) ^ 2) ≠ [] := by
    simpa using h
  unfold npVar
  rw [npMean_some h, Option.some_bind, npMean_some h2]
  simp [specVar, specMean]

/-! ## Lemmas: the plateau scan and local maxima -/

theorem le_iAheadAux (x : List ℚ) (val : ℚ) :
    ∀ fuel j, j ≤ iAheadAux x val fuel j := by
  intro fuel
  induction fuel with
  | zero => intro j; simp [iAheadAux]
  | succ n ih =>
    intro j
    simp only [iAheadAux]
    split
    · exact le_refl j
    · exact le_trans (Nat.le_succ j) (ih (j + 1))

theorem iAheadAux_le (x : List ℚ) (val : ℚ) :
    ∀ fuel j, j ≤ x.length - 1 → iAheadAux x val fuel j ≤ x.length - 1 := by
  intro fuel
  induction fuel with
  | zero => intro j hj; simpa [iAheadAux] using hj
  | succ n ih =>
    intro j hj
    simp only [iAheadAux]
    split
    · exact hj
    · rename_i hcond
      rw [not_or] at hcond
      exact ih (j + 1) (by omega)

theorem iAheadAux_const (x : List ℚ) (val : ℚ) :
    ∀ fuel j t, j ≤ t → t < iAheadAux x val fuel j →
      x.getD t 0 = val ∧ t < x.length - 1 := by
  intro fuel
  induction fuel with
  | zero => intro j t hjt ht; simp [iAheadAux] at ht; omega
  | succ n ih =>
    intro j t hjt ht
    simp only [iAheadAux] at ht
    split at ht
    · omega
    · rename_i hcond
      rw [not_or, not_not] at hcond
      rcases Nat.eq_or_lt_of_le hjt with h | h
      · exact ⟨h ▸ hcond.2, by omega⟩
      · exact ih (j + 1) t (by omega) ht

theorem le_iAhead (x : List ℚ) (val : ℚ) (start : ℕ) : start ≤ iAhead x val start :=
  le_iAheadAux x val x.length start

theorem iAhead_le (x : List ℚ) (val : ℚ) (start : ℕ) (h : start ≤ x.length - 1) :
    iAhead x val start ≤ x.length - 1 :=
  iAheadAux_le x val x.length start h

theorem iAhead_const (x : List ℚ) (val : ℚ) (start t : ℕ) (h1 : start ≤ t)
    (h2 : t < iAhead x val start) : x.getD t 0 = val ∧ t < x.length - 1 :=
  iAheadAux_const x val x.length start t h1 h2

theorem mem_localMaxima (x : List ℚ) (m : ℕ) (hm : m ∈ localMaxima x) :
    ∃ l, 1 ≤ l ∧ l < x.length - 1 ∧ x.getD (l - 1) 0 < x.getD l 0 ∧
      x.getD (iAhead x (x.getD l 0) (l + 1)) 0 < x.getD l 0 ∧
      m = (l + (iAhead x (x.getD l 0) (l + 1) - 1)) / 2 := by
  rw [localMaxima, List.mem_filterMap] at hm
  obtain ⟨l, _, hfl⟩ := hm
  split_ifs at hfl with h1 h2
  exact ⟨l, h1.1, h1.2.1, h1.2.2, h2, (Option.some_inj.mp hfl).symm⟩

theorem localMaxima_bounds (x : List ℚ) (m : ℕ) (hm : m ∈ localMaxima x) :
    1 ≤ m ∧ m + 2 ≤ x.length := by
  obtain ⟨l, hl1, hl2, _, _, hmid⟩ := mem_localMaxima x m hm
  have hge := le_iAhead x (x.getD l 0) (l + 1)
  have hle := iAhead_le x (x.getD l 0) (l + 1) (by omega)
  omega

theorem localMaxima_sorted (x : List ℚ) : (localMaxima x).Pairwise (· < ·) := by
  rw [localMaxima, List.pairwise_filterMap]
  have hrange : (List.range x.length).Pairwise (· < ·) :=
    List.pairwise_lt_range x.length
  refine hrange.imp ?_
  intro l1 l2 hlt m1 hm1 m2 hm2
  split_ifs at hm1 with c1 d1
  rotate_left
  · simp at hm1
  · simp at hm1
  split_ifs at hm2 with c2 d2
  rotate_left
  · simp at hm2
  · simp at hm2
  rw [Option.mem_def, Option.some_inj] at hm1 hm2
  -- the second rise cannot start inside the first plateau
  have hge1 : l1 + 1 ≤ iAhead x (x.getD l1 0) (l1 + 1) :=
    le_iAhead x (x.getD l1 0) (l1 + 1)
  have hge2 : l2 + 1 ≤ iAhead x (x.getD l2 0) (l2 + 1) :=
    le_iAhead x (x.getD l2 0) (l2 + 1)
  have hsep : iAhead x (x.getD l1 0) (l1 + 1) ≤ l2 := by
    by_contra hcon
    push_neg at hcon
    have hx2 : x.getD l2 0 = x.getD l1 0 :=
      (iAhead_const x (x.getD l1 0) (l1 + 1) l2 (by omega) hcon).1
    have hx2m : x.getD (l2 - 1) 0 = x.getD l1 0 := by
      rcases Nat.eq_or_lt_of_le (show l1 ≤ l2 - 1 by omega) with h | h
      · rw [← h]
      · exact (iAhead_const x (x.getD l1 0) (l1 + 1) (l2 - 1)
          (by omega) (by omega)).1
    rw [hx2, hx2m] at c2
    exact lt_irrefl _ c2.2.2
  omega

/-- Claim C7: with fewer than 2 beat indices, `calculate_hrv_metrics` returns
the complete metric set with every metric equal to zero, raising nothing. -/
theorem claim7_degenerate_all_zero (r_peaks : List ℤ) (fs : ℤ)
    (h : r_peaks.length < 2) :
    calculate_hrv_metrics r_peaks fs = ⟨some 0, some 0, some 0⟩ := by
  simp [calculate_hrv_metrics, h]

theorem claim7_degenerate_all_zero_witness :
    ([] : List ℤ).length < 2 ∧
      calculate_hrv_metrics [] 250 = ⟨some 0, some 0, some 0⟩ :=
  ⟨by decide, claim7_degenerate_all_zero [] 250 (by decide)⟩

/-- Claim C8: with at least 2 beats, the source computes the spec's interval
formula `(b[k+1] - b[k]) / fs * 1000`, the mean interval, and the population
standard deviation (divide by N), each rounded to 2 decimal places. -/
theorem claim8_hrv_formulas (b : List ℤ) (fs : ℤ) (_hfs : 0 < fs)
    (hb : 2 ≤ b.length) :
    rr_intervals_ms b fs = specIntervalsMs b fs ∧
    (calculate_hrv_metrics b fs).mean_rr =
      some (round2 ((specMean (specIntervalsMs b fs) : ℚ) : ℝ)) ∧
    (calculate_hrv_metrics b fs).sdnn =
      some (round2 (specPopStd (specIntervalsMs b fs))) := by
  have hrr := rr_intervals_eq_spec b fs
  have hne : rr_intervals_ms b fs ≠ [] := by
    intro e
    have := rr_intervals_length b fs
    rw [e] at this
    simp at this
    omega
  refine ⟨hrr, ?_, ?_⟩
  · simp only [calculate_hrv_metrics, if_neg (by omega : ¬ b.length < 2)]
    rw [npMean_some hne, hrr]
    simp
  · simp only [calculate_hrv_metrics, if_neg (by omega : ¬ b.length < 2)]
    rw [npVar_some hne, hrr]
    simp [specPopStd]

theorem claim8_hrv_formulas_witness :
    (0 : ℤ) < 250 ∧ 2 ≤ ([0, 250, 600] : List ℤ).length ∧
      (rr_intervals_ms [0, 250, 600] 250 = specIntervalsMs [0, 250, 600] 250 ∧
      (calculate_hrv_metrics [0, 250, 600] 250).mean_rr =
        some (round2 ((specMean (specIntervalsMs [0, 250, 600] 250) : ℚ) : ℝ)) ∧
      (calculate_hrv_metrics [0, 250, 600] 250).sdnn =
        some (round2 (specPopStd (specIntervalsMs [0, 250, 600] 250)))) :=
  ⟨by decide, by decide, claim8_hrv_formulas [0, 250, 600] 250 (by decide) (by decide)⟩

set_option maxRecDepth 100000 in
/-- Claim C1 (code evaluation at the failing input): with exactly 2 beats the
source returns `rmssd = NaN` — `np.diff` of the single interval is empty and
`np.mean` of an empty array is NaN — while `mean_rr = 1000.0` and
`sdnn = 0.0`; the claimed `rmssd = 0.0` is not what the code produces. -/
theorem claim1_two_beats_rmssd_nan :
    calculate_hrv_metrics [0, 250] 250 = ⟨some 1000, some 0, none⟩ := by
  have h1 : rr_intervals_ms [0, 250] 250 = [1000] := by
    with_unfolding_all decide
  have h2 : npMean [1000] = some 1000 := by with_unfolding_all decide
  have h3 : npVar [1000] = some 0 := by with_unfolding_all decide
  have h4 : listDiff [(1000 : ℚ)] = [] := by decide
  simp only [calculate_hrv_metrics, if_neg (by norm_num : ¬ ([0, 250] : List ℤ).length < 2),
    h1, h2, h3, h4]
  simp only [List.map_nil, npMean, Option.map_some', Option.map_none', if_true,
    HRVMetrics.mk.injEq]
  refine ⟨?_, ?_, trivial⟩
  · simp only [Option.some_inj, round2]
    push_cast
    rw [show ((1000 : ℝ) * 100) = ((100000 : ℤ) : ℝ) by norm_num, round_intCast]
    norm_num
  · simp only [Option.some_inj, round2]
    push_cast
    rw [Real.sqrt_zero]
    norm_num


/-! ## Lemmas: the decidable height test -/

/-- Over the reals, the threshold comparison `μ + 2*√v ≤ x` is equivalent to
the rational test `heightCondB` (for every `v`: Mathlib's `Real.sqrt` clamps
negative radicands to zero, and the envelope variance is nonnegative anyway). -/
theorem heightCondB_iff (μ v x : ℚ) :
    heightCondB μ v x = true ↔ ((μ : ℝ) + 2 * Real.sqrt ((v : ℚ) : ℝ) ≤ ((x : ℚ) : ℝ)) := by
  rw [heightCondB, Bool.and_eq_true, decide_eq_true_eq, decide_eq_true_eq]
  constructor
  · rintro ⟨h1, h2⟩
    have h1R : (μ : ℝ) ≤ (x : ℝ) := by exact_mod_cast h1
    have h2R : 4 * ((v : ℚ) : ℝ) ≤ ((x : ℝ) - (μ : ℝ)) ^ 2 := by
      exact_mod_cast h2
    have hs : Real.sqrt (4 * ((v : ℚ) : ℝ)) ≤ Real.sqrt (((x : ℝ) - (μ : ℝ)) ^ 2) :=
      Real.sqrt_le_sqrt h2R
    rw [Real.sqrt_sq (by linarith)] at hs
    have h4 : Real.sqrt (4 * ((v : ℚ) : ℝ)) = 2 * Real.sqrt ((v : ℚ) : ℝ) := by
      rw [show (4 : ℝ) * ((v : ℚ) : ℝ) = 2 ^ 2 * ((v : ℚ) : ℝ) by ring,
        Real.sqrt_mul (by positivity), Real.sqrt_sq (by norm_num)]
    rw [h4] at hs
    linarith
  · intro h
    have hnn : 0 ≤ Real.sqrt ((v : ℚ) : ℝ) := Real.sqrt_nonneg _
    have h1R : (μ : ℝ) ≤ (x : ℝ) := by linarith
    refine ⟨by exact_mod_cast h1R, ?_⟩
    have key : 4 * ((v : ℚ) : ℝ) ≤ ((x : ℝ) - (μ : ℝ)) ^ 2 := by
      by_cases hv : 0 ≤ ((v : ℚ) : ℝ)
      · have hle : 2 * Real.sqrt ((v : ℚ) : ℝ) ≤ (x : ℝ) - (μ : ℝ) := by linarith
        have hsq : (2 * Real.sqrt ((v : ℚ) : ℝ)) ^ 2 ≤ ((x : ℝ) - (μ : ℝ)) ^ 2 :=
          pow_le_pow_left₀ (by positivity) hle 2
        rw [mul_pow, Real.sq_sqrt hv] at hsq
        linarith
      · push_neg at hv
        have := sq_nonneg ((x : ℝ) - (μ : ℝ))
        linarith
    exact_mod_cast key

/-! ## Lemmas: argsort -/

theorem mem_insertIdx (p : List ℚ) (i t : ℕ) :
    ∀ l, t ∈ insertIdx p i l ↔ t = i ∨ t ∈ l := by
  intro l
  induction l with
  | nil => simp [insertIdx]
  | cons j rest ih =>
    simp only [insertIdx]
    split
    · simp [List.mem_cons]
    · simp only [List.mem_cons, ih]
      tauto

theorem mem_argsort (p : List ℚ) (i : ℕ) (h : i < p.length) : i ∈ argsort p := by
  have key : ∀ (l : List ℕ) (acc : List ℕ), i ∈ acc ∨ i ∈ l →
      i ∈ List.foldl (fun a j => insertIdx p j a) acc l := by
    intro l
    induction l with
    | nil =>
      intro acc hacc
      simpa using hacc.resolve_right (by simp)
    | cons j rest ih =>
      intro acc hacc
      simp only [List.foldl_cons]
      apply ih
      rw [mem_insertIdx]
      rcases hacc with ha | hb
      · tauto
      · rcases List.mem_cons.mp hb with rfl | hr <;> tauto
  exact key (List.range p.length) [] (Or.inr (List.mem_range.mpr h))

/-! ## Lemmas: the keep mask of the distance filter -/

theorem getD_set_false (keep : List Bool) (t i : ℕ)
    (h : keep.getD i false = false) : (keep.set t false).getD i false = false := by
  by_cases hit : i = t
  · subst hit
    by_cases hlt : i < keep.length
    · rw [getD_lt false _ i (by simpa using hlt)]
      simp [List.getElem_set]
    · rw [List.getD_eq_getElem?_getD,
        List.getElem?_eq_none (by simpa using (by omega : keep.length ≤ i))]
      rfl
  · rw [List.getD_eq_getElem?_getD, List.getElem?_set_ne (Ne.symm hit)]
    rw [List.getD_eq_getElem?_getD] at h
    exact h

theorem getD_set_self_false (keep : List Bool) (t : ℕ) :
    (keep.set t false).getD t false = false := by
  by_cases hlt : t < keep.length
  · rw [getD_lt false _ t (by simpa using hlt)]
    simp [List.getElem_set]
  · rw [List.getD_eq_getElem?_getD,
      List.getElem?_eq_none (by simpa using (by omega : keep.length ≤ t))]
    rfl


theorem sorted_getD_le (c : List ℕ) (hs : c.Pairwise (· < ·)) (i k : ℕ)
    (hik : i ≤ k) (hk : k < c.length) : c.getD i 0 ≤ c.getD k 0 := by
  rcases Nat.eq_or_lt_of_le hik with h | h
  · subst h; exact le_refl _
  · rw [getD_lt 0 c i (by omega), getD_lt 0 c k hk]
    exact le_of_lt (List.pairwise_iff_getElem.mp hs i k (by omega) hk h)

theorem sorted_getD_lt (c : List ℕ) (hs : c.Pairwise (· < ·)) (i k : ℕ)
    (hik : i < k) (hk : k < c.length) : c.getD i 0 < c.getD k 0 := by
  rw [getD_lt 0 c i (by omega), getD_lt 0 c k hk]
  exact List.pairwise_iff_getElem.mp hs i k (by omega) hk hik

theorem markLeft_false (c : List ℕ) (dist pj : ℕ) :
    ∀ k keep i, keep.getD i false = false →
      (markLeft c dist pj k keep).getD i false = false := by
  intro k
  induction k with
  | zero =>
    intro keep i h
    simp only [markLeft]
    split
    · exact getD_set_false keep 0 i h
    · exact h
  | succ k ih =>
    intro keep i h
    simp only [markLeft]
    split
    · exact ih (keep.set (k + 1) false) i (getD_set_false keep (k + 1) i h)
    · exact h

theorem markLeft_clears (c : List ℕ) (dist pj : ℕ) (hs : c.Pairwise (· < ·)) :
    ∀ k keep, k < c.length →
      ∀ i, i ≤ k → pj < c.getD i 0 + dist →
        (markLeft c dist pj k keep).getD i false = false := by
  intro k
  induction k with
  | zero =>
    intro keep hk i hi hcond
    interval_cases i
    simp only [markLeft]
    rw [if_pos hcond]
    exact getD_set_self_false keep 0
  | succ k ih =>
    intro keep hk i hi hcond
    simp only [markLeft]
    by_cases hc : pj < c.getD (k + 1) 0 + dist
    · rw [if_pos hc]
      rcases Nat.eq_or_lt_of_le hi with h | h
      · rw [h]
        exact markLeft_false c dist pj k _ (k + 1) (getD_set_self_false keep (k + 1))
      · exact ih (keep.set (k + 1) false) (by omega) i (by omega) hcond
    · exact absurd hcond (by
        have := sorted_getD_le c hs i (k + 1) hi hk
        omega)

theorem markRight_false (c : List ℕ) (dist pj : ℕ) :
    ∀ fuel k keep i, keep.getD i false = false →
      (markRight c dist pj fuel k keep).getD i false = false := by
  intro fuel
  induction fuel with
  | zero => intro k keep i h; exact h
  | succ fuel ih =>
    intro k keep i h
    simp only [markRight]
    split
    · exact ih (k + 1) (keep.set k false) i (getD_set_false keep k i h)
    · exact h

theorem markRight_clears (c : List ℕ) (dist pj : ℕ) (hs : c.Pairwise (· < ·)) :
    ∀ fuel k keep, c.length ≤ k + fuel →
      ∀ i, k ≤ i → i < c.length → c.getD i 0 < pj + dist →
        (markRight c dist pj fuel k keep).getD i false = false := by
  intro fuel
  induction fuel with
  | zero => intro k keep hfuel i h1 h2 _; omega
  | succ fuel ih =>
    intro k keep hfuel i h1 h2 hcond
    simp only [markRight]
    by_cases hc : k < c.length ∧ c.getD k 0 < pj + dist
    · rw [if_pos hc]
      rcases Nat.eq_or_lt_of_le h1 with h | h
      · rw [← h]
        exact markRight_false c dist pj fuel (k + 1) _ k (getD_set_self_false keep k)
      · exact ih (k + 1) (keep.set k false) (by omega) i (by omega) h2 hcond
    · rw [if_neg hc]
      rw [Classical.not_and_iff_or_not_not] at hc
      rcases hc with hc | hc
      · omega
      · exact absurd hcond (by
          have := sorted_getD_le c hs k i h1 h2
          omega)

theorem sbpdStep_false (c : List ℕ) (dist : ℕ) (keep : List Bool) (j i : ℕ)
    (h : keep.getD i false = false) :
    (sbpdStep c dist keep j).getD i false = false := by
  rw [sbpdStep]
  split
  · exact h
  · cases j with
    | zero => exact markRight_false c dist _ _ _ _ i h
    | succ t =>
      exact markRight_false c dist _ _ _ _ i (markLeft_false c dist _ t keep i h)

theorem sbpdStep_clears_left (c : List ℕ) (dist : ℕ) (hs : c.Pairwise (· < ·))
    (keep : List Bool) (j : ℕ) (hj : j < c.length)
    (hkeep : keep.getD j false = true) (i : ℕ) (hij : i < j)
    (hcond : c.getD j 0 < c.getD i 0 + dist) :
    (sbpdStep c dist keep j).getD i false = false := by
  rw [sbpdStep, if_neg (by rw [hkeep]; simp)]
  cases j with
  | zero => omega
  | succ t =>
    apply markRight_false
    exact markLeft_clears c dist (c.getD (t + 1) 0) hs t keep (by omega) i
      (by omega) hcond

theorem sbpdStep_clears_right (c : List ℕ) (dist : ℕ) (hs : c.Pairwise (· < ·))
    (keep : List Bool) (j : ℕ) (hj : j < c.length)
    (hkeep : keep.getD j false = true) (i : ℕ) (hij : j < i) (hi : i < c.length)
    (hcond : c.getD i 0 < c.getD j 0 + dist) :
    (sbpdStep c dist keep j).getD i false = false := by
  rw [sbpdStep, if_neg (by rw [hkeep]; simp)]
  cases j with
  | zero =>
    exact markRight_clears c dist (c.getD 0 0) hs c.length 1 keep (by omega) i
      (by omega) hi hcond
  | succ t =>
    exact markRight_clears c dist (c.getD (t + 1) 0) hs c.length (t + 2) _
      (by omega) i (by omega) hi hcond


theorem sbpdProcess_false (c : List ℕ) (dist : ℕ) :
    ∀ o keep i, keep.getD i false = false →
      (sbpdProcess c dist o keep).getD i false = false := by
  intro o
  induction o with
  | nil => intro keep i h; exact h
  | cons t rest ih =>
    intro keep i h
    exact ih (sbpdStep c dist keep t) i (sbpdStep_false c dist keep t i h)

/-- The central invariant of `_select_by_peak_distance`: two peaks closer than
`distance` cannot both survive, provided both get processed. -/
theorem sbpdProcess_not_both (c : List ℕ) (dist : ℕ) (hs : c.Pairwise (· < ·)) :
    ∀ o keep i j, i < j → j < c.length → c.getD j 0 < c.getD i 0 + dist →
      i ∈ o → j ∈ o →
      ¬((sbpdProcess c dist o keep).getD i false = true ∧
        (sbpdProcess c dist o keep).getD j false = true) := by
  intro o
  induction o with
  | nil => intro keep i j _ _ _ hi _; simp at hi
  | cons t rest ih =>
    intro keep i j hij hj hgap hi hj2
    simp only [List.mem_cons] at hi hj2
    simp only [sbpdProcess]
    by_cases hti : t = i
    · subst hti
      by_cases hk : keep.getD t false = true
      · have hjf : (sbpdStep c dist keep t).getD j false = false :=
          sbpdStep_clears_right c dist hs keep t (by omega) hk j hij hj hgap
        rintro ⟨_, h2⟩
        rw [sbpdProcess_false c dist rest _ j hjf] at h2
        exact Bool.false_ne_true h2
      · have hk0 : keep.getD t false = false := by
          revert hk
          cases keep.getD t false <;> simp
        have hstep : sbpdStep c dist keep t = keep := by
          rw [sbpdStep, if_pos hk0]
        rintro ⟨h1, _⟩
        rw [hstep, sbpdProcess_false c dist rest keep t hk0] at h1
        exact Bool.false_ne_true h1
    · by_cases htj : t = j
      · subst htj
        by_cases hk : keep.getD t false = true
        · have hif : (sbpdStep c dist keep t).getD i false = false :=
            sbpdStep_clears_left c dist hs keep t hj hk i hij hgap
          rintro ⟨h1, _⟩
          rw [sbpdProcess_false c dist rest _ i hif] at h1
          exact Bool.false_ne_true h1
        · have hk0 : keep.getD t false = false := by
            revert hk
            cases keep.getD t false <;> simp
          have hstep : sbpdStep c dist keep t = keep := by
            rw [sbpdStep, if_pos hk0]
          rintro ⟨_, h2⟩
          rw [hstep, sbpdProcess_false c dist rest keep t hk0] at h2
          exact Bool.false_ne_true h2
      · have hi' : i ∈ rest := by
          rcases hi with h | h
          · exact absurd h.symm hti
          · exact h
        have hj' : j ∈ rest := by
          rcases hj2 with h | h
          · exact absurd h.symm htj
          · exact h
        exact ih (sbpdStep c dist keep t) i j hij hj hgap hi' hj'

/-! ## Lemmas: boolean-mask indexing -/

theorem mem_applyKeep (c : List ℕ) :
    ∀ (keep : List Bool) (y : ℕ), y ∈ applyKeep c keep →
      ∃ i, i < c.length ∧ keep.getD i false = true ∧ y = c.getD i 0 := by
  induction c with
  | nil => intro keep y h; simp [applyKeep] at h
  | cons a c' ih =>
    intro keep y h
    cases keep with
    | nil => simp [applyKeep] at h
    | cons b k' =>
      cases b
      · rw [show applyKeep (a :: c') (false :: k') = applyKeep c' k' by
          simp [applyKeep]] at h
        obtain ⟨i, hi, hk, hy⟩ := ih k' y h
        exact ⟨i + 1, by simpa using hi, by simpa using hk, by simpa using hy⟩
      · rw [show applyKeep (a :: c') (true :: k') = a :: applyKeep c' k' by
          simp [applyKeep]] at h
        rcases List.mem_cons.mp h with rfl | h
        · exact ⟨0, by simp, by simp, by simp⟩
        · obtain ⟨i, hi, hk, hy⟩ := ih k' y h
          exact ⟨i + 1, by simpa using hi, by simpa using hk, by simpa using hy⟩

theorem pairwise_applyKeep {R : ℕ → ℕ → Prop} :
    ∀ (c : List ℕ) (keep : List Bool),
      (∀ i j, i < j → j < c.length → keep.getD i false = true →
        keep.getD j false = true → R (c.getD i 0) (c.getD j 0)) →
      (applyKeep c keep).Pairwise R := by
  intro c
  induction c with
  | nil => intro keep _; simp [applyKeep]
  | cons a c' ih =>
    intro keep H
    cases keep with
    | nil => simp [applyKeep]
    | cons b k' =>
      have Hshift : ∀ i j, i < j → j < c'.length → k'.getD i false = true →
          k'.getD j false = true → R (c'.getD i 0) (c'.getD j 0) := by
        intro i j hij hj hki hkj
        have := H (i + 1) (j + 1) (by omega) (by simpa using hj)
          (by simpa using hki) (by simpa using hkj)
        simpa using this
      cases b
      · rw [show applyKeep (a :: c') (false :: k') = applyKeep c' k' by
          simp [applyKeep]]
        exact ih k' Hshift
      · rw [show applyKeep (a :: c') (true :: k') = a :: applyKeep c' k' by
          simp [applyKeep]]
        refine List.Pairwise.cons ?_ (ih k' Hshift)
        intro y hy
        obtain ⟨i, hi, hk, rfl⟩ := mem_applyKeep c' k' y hy
        have := H 0 (i + 1) (by omega) (by simpa using hi) (by simp)
          (by simpa using hk)
        simpa using this


/-! ## Lemmas: assembling `find_peaks` and `find_r_peaks` -/

/-- The survivors of `find_peaksC` are strictly increasing with gaps of at
least `dist`. -/
theorem find_peaksC_pairwise (x : List ℚ) (μ v : ℚ) (dist : ℕ) :
    (find_peaksC x μ v dist).Pairwise (fun a b => a < b ∧ a + dist ≤ b) := by
  have hsorted : (find_peaks_candidates x μ v).Pairwise (· < ·) :=
    (localMaxima_sorted x).filter _
  simp only [find_peaksC]
  apply pairwise_applyKeep
  intro i j hij hj hki hkj
  refine ⟨sorted_getD_lt _ hsorted i j hij hj, ?_⟩
  by_contra hcon
  push_neg at hcon
  rw [selectByPeakDistance] at hki hkj
  refine sbpdProcess_not_both (find_peaks_candidates x μ v) dist hsorted
    (argsort ((find_peaks_candidates x μ v).map (fun m => x.getD m 0))).reverse
    (List.replicate (find_peaks_candidates x μ v).length true) i j hij hj hcon
    ?_ ?_ ⟨hki, hkj⟩
  · rw [List.mem_reverse]
    exact mem_argsort _ i (by rw [List.length_map]; omega)
  · rw [List.mem_reverse]
    exact mem_argsort _ j (by rw [List.length_map]; omega)

/-- The real-valued height test of `find_peaks` agrees with the decidable
rational test of `find_peaksC`. -/
theorem find_peaks_eq_findPeaksC (x : List ℚ) (μ v : ℚ) (dist : ℕ) :
    find_peaks x (((μ : ℚ) : ℝ) + 2 * Real.sqrt ((v : ℚ) : ℝ)) dist =
      find_peaksC x μ v dist := by
  have hfilter : (localMaxima x).filter
      (fun m => decide ((((μ : ℚ) : ℝ) + 2 * Real.sqrt ((v : ℚ) : ℝ)) ≤
        ((x.getD m 0 : ℚ) : ℝ))) =
      (localMaxima x).filter (fun m => heightCondB μ v (x.getD m 0)) := by
    apply List.filter_congr
    intro m _
    rw [Bool.eq_iff_iff, decide_eq_true_eq, heightCondB_iff]
  simp only [find_peaks, find_peaksC, find_peaks_candidates]
  rw [hfilter]

/-- `find_r_peaks` and its computable twin agree everywhere. -/
theorem find_r_peaks_eqC (signal : List ℚ) (fs : ℕ) :
    find_r_peaks signal fs = find_r_peaksC signal fs := by
  rw [find_r_peaks, find_r_peaksC]
  split_ifs <;> try rfl
  exact congrArg Except.ok
    (find_peaks_eq_findPeaksC (integrated_signal signal fs)
      (envMean (integrated_signal signal fs)) (envVar (integrated_signal signal fs))
      (min_distance fs))

theorem squared_length (signal : List ℚ) :
    (squared_signal signal).length = signal.length - 1 := by
  simp [squared_signal, diff_signal, listDiff_length]

theorem convSame_length (a v : List ℚ) (ha : a ≠ []) (hv : v ≠ []) :
    (convSame a v).length = max a.length v.length := by
  have hA : 1 ≤ a.length := List.length_pos.mpr ha
  have hV : 1 ≤ v.length := List.length_pos.mpr hv
  rw [convSame]
  simp only [List.length_take, List.length_drop, convFull, List.length_map,
    List.length_range]
  omega

theorem localMaxima_const (x : List ℚ)
    (hconst : ∀ i, i < x.length → ∀ j, j < x.length → x.getD i 0 = x.getD j 0) :
    localMaxima x = [] := by
  rw [localMaxima, List.filterMap_eq_nil]
  intro l hl
  rw [if_neg]
  rintro ⟨h1, h2, h3⟩
  have hlen := List.mem_range.mp hl
  rw [hconst (l - 1) (by omega) l (by omega)] at h3
  exact lt_irrefl _ h3

/-! ## Claim theorems: beat detector -/

/-- Claim C2 (amended): every returned beat sequence is strictly increasing
with adjacent (indeed all) gaps at least `int(0.3*fs)` — truncation, not
`round(0.3*fs)` as the spec states. -/
theorem claim2_refractory_floor (signal : List ℚ) (fs : ℕ) (r : List ℕ)
    (h : find_r_peaks signal fs = .ok r) :
    r.Pairwise (fun a b => a < b ∧ a + min_distance fs ≤ b) := by
  rw [find_r_peaks_eqC, find_r_peaksC] at h
  by_cases h1 : squared_signal signal = []
  · rw [if_pos h1] at h
    exact absurd h (by simp)
  rw [if_neg h1] at h
  by_cases h2 : window_size fs = 0
  · rw [if_pos h2] at h
    exact absurd h (by simp)
  rw [if_neg h2] at h
  by_cases h3 : min_distance fs < 1
  · rw [if_pos h3] at h
    exact absurd h (by simp)
  rw [if_neg h3] at h
  injection h with h
  rw [← h]
  exact find_peaksC_pairwise _ _ _ _

set_option maxRecDepth 400000 in
/-- Claim C2 counterexample: at `fs = 12` the code enforces only
`int(0.3*12) = 3`; on `sig33` it returns adjacent peaks 10 and 13 whose gap 3
is smaller than the claimed bound `round(0.3*12) = 4`. -/
theorem claim2_counterexample :
    find_r_peaks sig33 12 = .ok [10, 13] ∧ ((13 : ℤ) - 10 < specRefractory 12) := by
  constructor
  · rw [find_r_peaks_eqC]
    with_unfolding_all decide
  · norm_num [specRefractory, round_eq]

set_option maxRecDepth 400000 in
theorem claim2_refractory_floor_witness :
    find_r_peaks sig33 12 = .ok [10, 13] ∧
      ([10, 13] : List ℕ).Pairwise (fun a b => a < b ∧ a + min_distance 12 ≤ b) :=
  ⟨by rw [find_r_peaks_eqC]; with_unfolding_all decide,
    claim2_refractory_floor sig33 12 [10, 13]
      (by rw [find_r_peaks_eqC]; with_unfolding_all decide)⟩

/-- Claim C5 (amended): on every signal of length at least 2 whose detection
envelope is constant (and any `fs` large enough that the moving-average window
and the refractory distance are nonzero, i.e. the stages do not raise), the
detector returns the empty index sequence.  For signals with an empty
difference (length < 2) the code raises instead — see the counterexample. -/
theorem claim5_constant_envelope_empty (signal : List ℚ) (fs : ℕ)
    (hlen : 2 ≤ signal.length) (hw : 1 ≤ window_size fs)
    (hd : 1 ≤ min_distance fs)
    (hconst : ∀ i, i < (integrated_signal signal fs).length →
      ∀ j, j < (integrated_signal signal fs).length →
        (integrated_signal signal fs).getD i 0 = (integrated_signal signal fs).getD j 0) :
    find_r_peaks signal fs = .ok [] := by
  rw [find_r_peaks_eqC, find_r_peaksC]
  rw [if_neg (by
    intro he
    have := squared_length signal
    rw [he] at this
    simp at this
    omega)]
  rw [if_neg (by omega), if_neg (by omega)]
  simp only [find_peaksC, find_peaks_candidates, localMaxima_const _ hconst,
    List.filter_nil, applyKeep, List.zip_nil_left, List.filterMap_nil]

set_option maxRecDepth 400000 in
theorem claim5_constant_envelope_empty_witness :
    find_r_peaks flat10 7 = .ok [] :=
  claim5_constant_envelope_empty flat10 7 (by decide) (by decide) (by decide)
    (by with_unfolding_all decide)

set_option maxRecDepth 100000 in
/-- Claim C5 counterexample: on a 1-sample signal the differenced signal is
empty (fewer than 2 samples remain), and `find_r_peaks` raises `np.convolve`'s
`ValueError` instead of returning an empty index sequence. -/
theorem claim5_counterexample :
    find_r_peaks [(5 : ℚ)] 250 = .error "np.convolve: a cannot be empty" := by
  rw [find_r_peaks_eqC]
  with_unfolding_all decide

set_option maxRecDepth 400000 in
/-- Claim C6 counterexample: the code returns the raw `find_peaks` indices
over the envelope (the differenced signal's index space); the spec-side
re-mapping that compensates the 1-sample differentiation shift would return
each index shifted by one — the two disagree on `sig33`, so no re-mapping is
applied by the code. -/
theorem claim6_counterexample :
    find_r_peaks sig33 12 = .ok [10, 13] ∧
      find_r_peaks_remapped sig33 12 = .ok [11, 14] ∧
      ([10, 13] : List ℕ) ≠ [11, 14] := by
  have h : find_r_peaks sig33 12 = .ok [10, 13] := by
    rw [find_r_peaks_eqC]
    with_unfolding_all decide
  refine ⟨h, ?_, by decide⟩
  rw [find_r_peaks_remapped, h]
  rfl

/-- The two-candidate instance of `_select_by_peak_distance`: with exactly two
peaks within one refractory distance, the higher-valued one survives and the
lower one is discarded. -/
theorem select_two_within_higher_wins (a b : ℕ) (ha hb : ℚ) (dist : ℕ)
    (hwithin : b < a + dist) (hh : ha < hb) :
    applyKeep [a, b] (selectByPeakDistance [a, b] [ha, hb] dist) = [b] := by
  have hargs : argsort [ha, hb] = [0, 1] := by
    rw [argsort]
    rw [show (List.range ([ha, hb] : List ℚ).length) = [0, 1] by rfl]
    simp only [List.foldl_cons, List.foldl_nil, insertIdx]
    rw [if_neg]
    simp only [List.getD_cons_zero, List.getD_cons_succ]
    exact not_lt.mpr (le_of_lt hh)
  have hstep1 : sbpdStep [a, b] dist [true, true] 1 = [false, true] := by
    rw [sbpdStep, if_neg (by simp)]
    show markRight [a, b] dist b 2 2 (markLeft [a, b] dist b 0 [true, true]) =
      [false, true]
    have hml : markLeft [a, b] dist b 0 [true, true] = [false, true] := by
      simp only [markLeft]
      rw [if_pos (show b < ([a, b] : List ℕ).getD 0 0 + dist from hwithin)]
      rfl
    rw [hml]
    simp only [markRight]
    rw [if_neg (by simp)]
  have hstep2 : sbpdStep [a, b] dist [false, true] 0 = [false, true] := by
    rw [sbpdStep,
      if_pos (show ([false, true] : List Bool).getD 0 false = false from rfl)]
  rw [selectByPeakDistance, hargs]
  show applyKeep [a, b] (sbpdProcess [a, b] dist [1, 0] [true, true]) = [b]
  simp only [sbpdProcess]
  rw [hstep1, hstep2]
  rfl

/-- Claim C9 (amended): (1) a returned peak always clears the single global
threshold `mean(envelope) + 2*std(envelope)`; (2) with exactly two candidate
maxima within one refractory distance of each other, the higher one is kept
and the lower one discarded.  The universal "keep the higher of any
within-window pair" fails with three peaks — see the counterexample. -/
theorem claim9_threshold_and_tiebreak :
    (∀ (signal : List ℚ) (fs : ℕ) (r : List ℕ), find_r_peaks signal fs = .ok r →
      ∀ p ∈ r, peak_threshold (integrated_signal signal fs) ≤
        (((integrated_signal signal fs).getD p 0 : ℚ) : ℝ)) ∧
    (∀ (a b : ℕ) (ha hb : ℚ) (dist : ℕ), b < a + dist → ha < hb →
      applyKeep [a, b] (selectByPeakDistance [a, b] [ha, hb] dist) = [b]) := by
  constructor
  · intro signal fs r h p hp
    rw [find_r_peaks_eqC, find_r_peaksC] at h
    by_cases h1 : squared_signal signal = []
    · rw [if_pos h1] at h
      exact absurd h (by simp)
    rw [if_neg h1] at h
    by_cases h2 : window_size fs = 0
    · rw [if_pos h2] at h
      exact absurd h (by simp)
    rw [if_neg h2] at h
    by_cases h3 : min_distance fs < 1
    · rw [if_pos h3] at h
      exact absurd h (by simp)
    rw [if_neg h3] at h
    injection h with h
    rw [← h] at hp
    simp only [find_peaksC] at hp
    obtain ⟨i, hi, _, rfl⟩ := mem_applyKeep _ _ p hp
    have hmemc : (find_peaks_candidates (integrated_signal signal fs)
        (envMean (integrated_signal signal fs))
        (envVar (integrated_signal signal fs))).getD i 0 ∈
        find_peaks_candidates (integrated_signal signal fs)
          (envMean (integrated_signal signal fs))
          (envVar (integrated_signal signal fs)) := by
      rw [getD_lt 0 _ i hi]
      exact List.getElem_mem hi
    have hcond := List.of_mem_filter hmemc
    exact (heightCondB_iff _ _ _).mp hcond
  · intro a b ha hb dist hwithin hh
    exact select_two_within_higher_wins a b ha hb dist hwithin hh

set_option maxRecDepth 400000 in
/-- Claim C9 counterexample: on `sig46` at `fs = 10` the candidate maxima are
20, 22, 24 with strictly increasing envelope heights; the pair (20, 22) lies
within the refractory distance 3, yet the detector keeps the lower-valued 20
and discards the higher-valued 22 (22 was already eliminated by the taller
peak 24), returning `[20, 24]` — the universal higher-wins policy of the
claim does not hold. -/
theorem claim9_counterexample :
    find_peaks_candidates (integrated_signal sig46 10)
        (envMean (integrated_signal sig46 10))
        (envVar (integrated_signal sig46 10)) = [20, 22, 24] ∧
      (integrated_signal sig46 10).getD 20 0 <
        (integrated_signal sig46 10).getD 22 0 ∧
      22 - 20 < min_distance 10 ∧
      find_r_peaks sig46 10 = .ok [20, 24] := by
  refine ⟨?_, ?_, by decide, ?_⟩
  · with_unfolding_all decide
  · with_unfolding_all decide
  · rw [find_r_peaks_eqC]
    with_unfolding_all decide

set_option maxRecDepth 400000 in
theorem claim9_threshold_and_tiebreak_witness :
    (find_r_peaks sig33 12 = .ok [10, 13] ∧
      ∀ p ∈ ([10, 13] : List ℕ), peak_threshold (integrated_signal sig33 12) ≤
        (((integrated_signal sig33 12).getD p 0 : ℚ) : ℝ)) ∧
    ((22 : ℕ) < 20 + 3 ∧ (4 : ℚ) < 9 ∧
      applyKeep [20, 22] (selectByPeakDistance [20, 22] [(4 : ℚ), 9] 3) = [22]) :=
  ⟨⟨by rw [find_r_peaks_eqC]; with_unfolding_all decide,
    claim9_threshold_and_tiebreak.1 sig33 12 [10, 13]
      (by rw [find_r_peaks_eqC]; with_unfolding_all decide)⟩,
    by decide, by decide,
    claim9_threshold_and_tiebreak.2 20 22 4 9 3 (by decide) (by decide)⟩


/-! ## Lemmas: the integration window (claim C3) -/

theorem convFull_getD (a v : List ℚ) (k : ℕ) (hk : k < a.length + v.length - 1) :
    (convFull a v).getD k 0 =
      ((List.range a.length).map (fun j =>
        if j ≤ k ∧ k - j < v.length then a.getD j 0 * v.getD (k - j) 0 else 0)).sum := by
  rw [convFull, getD_lt 0 _ k (by simpa using hk)]
  rw [List.getElem_map, List.getElem_range]

theorem convSame_getD (a v : List ℚ) (i : ℕ) (hi : i < max a.length v.length) :
    (convSame a v).getD i 0 =
      (convFull a v).getD ((min a.length v.length - 1) / 2 + i) 0 := by
  rw [convSame, List.getD_eq_getElem?_getD, List.getElem?_take_of_lt hi,
    List.getElem?_drop, ← List.getD_eq_getElem?_getD]

/-- Claim C3 (amended): the integration stage is a same-length moving average
whose width is the truncation `int(0.150*fs)` (not `round`); for an odd width
`2h+1` that fits in the squared differenced signal, every output sample `i` is
the mean of the squared signal over the window centred at `i` (clipped at the
edges). -/
theorem claim3_integration_window (signal : List ℚ) (fs h : ℕ)
    (hodd : window_size fs = 2 * h + 1)
    (hfit : window_size fs ≤ (squared_signal signal).length) :
    (integrated_signal signal fs).length = (squared_signal signal).length ∧
    ∀ i, i < (squared_signal signal).length →
      (integrated_signal signal fs).getD i 0 =
        ((List.range (squared_signal signal).length).map (fun j =>
          if i ≤ j + h ∧ j ≤ i + h then (squared_signal signal).getD j 0 else 0)).sum /
          (window_size fs : ℚ) := by
  set a := squared_signal signal with ha
  set w := window_size fs with hwdef
  have hA : a ≠ [] := by
    intro he
    rw [he] at hfit
    simp at hfit
    omega
  have hkerlen : (movAvgKernel w).length = w := by simp [movAvgKernel]
  have hker : ∀ t, t < w → (movAvgKernel w).getD t 0 = ((w : ℚ))⁻¹ := by
    intro t ht
    rw [movAvgKernel, getD_lt _ _ t (by simpa using ht)]
    simp
  have hmax : max a.length (movAvgKernel w).length = a.length := by
    rw [hkerlen]; omega
  have hmin : min a.length (movAvgKernel w).length = w := by
    rw [hkerlen]; omega
  constructor
  · rw [integrated_signal, ← ha, ← hwdef, convSame_length a _ hA
      (by rw [← List.length_pos, hkerlen]; omega), hmax]
  · intro i hi
    rw [integrated_signal, ← ha, ← hwdef, convSame_getD a _ i (by omega), hmin]
    have hoff : (w - 1) / 2 = h := by omega
    rw [hoff, convFull_getD a _ (h + i) (by rw [hkerlen]; omega)]
    have hpt : ∀ j, (if j ≤ h + i ∧ h + i - j < (movAvgKernel w).length then
        a.getD j 0 * (movAvgKernel w).getD (h + i - j) 0 else 0) =
        (if i ≤ j + h ∧ j ≤ i + h then a.getD j 0 else 0) * ((w : ℚ))⁻¹ := by
      intro j
      rw [hkerlen]
      by_cases hc : j ≤ h + i ∧ h + i - j < w
      · rw [if_pos hc, if_pos (by omega), hker _ hc.2]
      · rw [if_neg hc, if_neg (by omega), zero_mul]
    rw [List.map_congr_left (fun j _ => hpt j), List.sum_map_mul_right,
      div_eq_mul_inv]

theorem claim3_window_counterexample :
    window_size 250 = 37 ∧ specWindow 250 = 38 ∧
      (window_size 250 : ℤ) ≠ specWindow 250 := by
  refine ⟨by decide, ?_, ?_⟩
  · norm_num [specWindow, round_eq]
  · norm_num [specWindow, round_eq, window_size]

theorem claim3_integration_window_witness :
    window_size 20 = 2 * 1 + 1 ∧
      window_size 20 ≤ (squared_signal [0, 1, 3, 2, 0]).length ∧
      ((integrated_signal [0, 1, 3, 2, 0] 20).length =
        (squared_signal [0, 1, 3, 2, 0]).length ∧
      ∀ i, i < (squared_signal [0, 1, 3, 2, 0]).length →
        (integrated_signal [0, 1, 3, 2, 0] 20).getD i 0 =
          ((List.range (squared_signal [0, 1, 3, 2, 0]).length).map (fun j =>
            if i ≤ j + 1 ∧ j ≤ i + 1 then
              (squared_signal [0, 1, 3, 2, 0]).getD j 0 else 0)).sum /
            (window_size 20 : ℚ)) :=
  ⟨by decide, by with_unfolding_all decide,
    claim3_integration_window [0, 1, 3, 2, 0] 20 1 (by decide)
      (by with_unfolding_all decide)⟩

/-! ## Lemmas: index validity of the detector (claim C6)

When the moving-average window is wider than the squared differenced signal,
the envelope is unimodal: its full convolution (of a nonnegative sequence
with a constant kernel) can strictly rise only while new samples enter the
window and strictly fall only after samples leave it.  A surviving plateau
must therefore span the whole central region, and Chebyshev's inequality
(at most a quarter of the samples can clear `mean + 2*std`) caps the window
width, which keeps the plateau midpoint inside the signal. -/

theorem movAvgKernel_getD (w t : ℕ) (ht : t < w) :
    (movAvgKernel w).getD t 0 = ((w : ℚ))⁻¹ := by
  rw [movAvgKernel, getD_lt _ _ t (by simpa using ht)]
  simp

theorem movAvgKernel_getD_nonneg (w t : ℕ) : 0 ≤ (movAvgKernel w).getD t 0 := by
  by_cases ht : t < w
  · rw [movAvgKernel_getD w t ht]
    positivity
  · rw [movAvgKernel, List.getD_eq_getElem?_getD,
      List.getElem?_eq_none (by simpa using (by omega : w ≤ t))]
    rfl

theorem getD_nonneg_of_all (a : List ℚ) (ha : ∀ q ∈ a, 0 ≤ q) (t : ℕ) :
    0 ≤ a.getD t 0 := by
  by_cases htl : t < a.length
  · rw [getD_lt 0 a t htl]
    exact ha _ (List.getElem_mem htl)
  · rw [List.getD_eq_getElem?_getD, List.getElem?_eq_none (by omega)]
    rfl

theorem squared_signal_nonneg (signal : List ℚ) :
    ∀ q ∈ squared_signal signal, 0 ≤ q := by
  intro q hq
  rw [squared_signal] at hq
  obtain ⟨d, _, rfl⟩ := List.mem_map.mp hq
  exact sq_nonneg d

theorem convFull_length (a : List ℚ) (w : ℕ) :
    (convFull a (movAvgKernel w)).length = a.length + w - 1 := by
  simp [convFull, movAvgKernel]

theorem convFull_nonneg (a : List ℚ) (w : ℕ) (ha : ∀ q ∈ a, 0 ≤ q) (k : ℕ) :
    0 ≤ (convFull a (movAvgKernel w)).getD k 0 := by
  by_cases hk : k < a.length + w - 1
  · rw [convFull_getD _ _ k (by simpa [movAvgKernel] using hk)]
    apply List.sum_nonneg
    intro q hq
    obtain ⟨jj, _, rfl⟩ := List.mem_map.mp hq
    split
    · exact mul_nonneg (getD_nonneg_of_all a ha jj) (movAvgKernel_getD_nonneg w _)
    · exact le_refl 0
  · rw [List.getD_eq_getElem?_getD,
      List.getElem?_eq_none (by rw [convFull_length]; omega)]
    rfl

/-- A strict rise of the smoothed sequence needs a sample entering the
window: past the end of the input the convolution is nonincreasing. -/
theorem convFull_rise (a : List ℚ) (w : ℕ) (ha : ∀ q ∈ a, 0 ≤ q) (k : ℕ)
    (h : (convFull a (movAvgKernel w)).getD k 0 <
      (convFull a (movAvgKernel w)).getD (k + 1) 0) :
    k + 1 < a.length := by
  by_contra hcon
  push_neg at hcon
  refine absurd h (not_lt.mpr ?_)
  by_cases hk1 : k + 1 < a.length + w - 1
  · rw [convFull_getD _ _ (k + 1) (by simpa [movAvgKernel] using hk1),
      convFull_getD _ _ k (by simp [movAvgKernel]; omega)]
    apply List.sum_le_sum
    intro jj hjj
    have hjA : jj < a.length := List.mem_range.mp hjj
    have hkl : (movAvgKernel w).length = w := by simp [movAvgKernel]
    rw [hkl]
    by_cases hcnd : jj ≤ k + 1 ∧ k + 1 - jj < w
    · rw [if_pos hcnd, if_pos (show jj ≤ k ∧ k - jj < w from ⟨by omega, by omega⟩),
        movAvgKernel_getD w _ hcnd.2, movAvgKernel_getD w _ (show k - jj < w by omega)]
    · rw [if_neg hcnd]
      split
      · exact mul_nonneg (getD_nonneg_of_all a ha jj) (movAvgKernel_getD_nonneg w _)
      · exact le_refl 0
  · rw [List.getD_eq_getElem?_getD (convFull a (movAvgKernel w)) (k + 1),
      List.getElem?_eq_none (by rw [convFull_length]; omega)]
    simpa using convFull_nonneg a w ha k

/-- A strict fall of the smoothed sequence needs a sample leaving the
window: before the window start reaches the input the convolution is
nondecreasing. -/
theorem convFull_drop (a : List ℚ) (w : ℕ) (ha : ∀ q ∈ a, 0 ≤ q)
    (ha0 : a ≠ []) (k : ℕ)
    (h : (convFull a (movAvgKernel w)).getD (k + 1) 0 <
      (convFull a (movAvgKernel w)).getD k 0) :
    w ≤ k + 1 := by
  by_contra hcon
  push_neg at hcon
  refine absurd h (not_lt.mpr ?_)
  have hA : 1 ≤ a.length := List.length_pos.mpr ha0
  have hk1 : k + 1 < a.length + w - 1 := by omega
  rw [convFull_getD _ _ (k + 1) (by simpa [movAvgKernel] using hk1),
    convFull_getD _ _ k (by simp [movAvgKernel]; omega)]
  apply List.sum_le_sum
  intro jj hjj
  have hkl : (movAvgKernel w).length = w := by simp [movAvgKernel]
  rw [hkl]
  by_cases hcnd : jj ≤ k ∧ k - jj < w
  · rw [if_pos hcnd,
      if_pos (show jj ≤ k + 1 ∧ k + 1 - jj < w from ⟨by omega, by omega⟩),
      movAvgKernel_getD w _ hcnd.2,
      movAvgKernel_getD w _ (show k + 1 - jj < w by omega)]
  · rw [if_neg hcnd]
    split
    · exact mul_nonneg (getD_nonneg_of_all a ha jj) (movAvgKernel_getD_nonneg w _)
    · exact le_refl 0

theorem envVar_nonneg (l : List ℚ) : 0 ≤ envVar l := by
  rw [envVar]
  apply div_nonneg
  · apply List.sum_nonneg
    intro q hq
    obtain ⟨x, _, rfl⟩ := List.mem_map.mp hq
    exact sq_nonneg _
  · exact Nat.cast_nonneg _

theorem envVar_mul_length (l : List ℚ) (h : l ≠ []) :
    (l.map (fun x => (x - envMean l) ^ 2)).sum = envVar l * l.length := by
  rw [envVar, div_mul_cancel₀]
  exact Nat.cast_ne_zero.mpr (by simpa [List.length_eq_zero] using h)

/-- A run of `j - l` samples on which a nonnegative function is at least `c`
contributes at least `(j - l) * c` to the total sum. -/
theorem sum_map_ge_count (g : ℚ → ℚ) (c : ℚ) :
    ∀ (env : List ℚ) (l j : ℕ), (∀ q ∈ env, 0 ≤ g q) → j ≤ env.length →
      (∀ t, l ≤ t → t < j → c ≤ g (env.getD t 0)) →
      ((j - l : ℕ) : ℚ) * c ≤ (env.map g).sum := by
  intro env
  induction env with
  | nil =>
    intro l j _ hj _
    have hj0 : j = 0 := Nat.le_zero.mp (by simpa using hj)
    subst hj0
    simp
  | cons x rest ih =>
    intro l j hnn hj hseg
    have hx0 : 0 ≤ g x := hnn x (List.mem_cons_self x rest)
    have hrestnn : ∀ q ∈ rest, 0 ≤ g q := fun q hq => hnn q (List.mem_cons_of_mem x hq)
    have hsumnn : 0 ≤ (rest.map g).sum := by
      apply List.sum_nonneg
      intro q hq
      obtain ⟨q2, hq2, rfl⟩ := List.mem_map.mp hq
      exact hrestnn q2 hq2
    cases j with
    | zero =>
      simp only [Nat.zero_sub, Nat.cast_zero, zero_mul, List.map_cons, List.sum_cons]
      linarith
    | succ j2 =>
      cases l with
      | zero =>
        have hx : c ≤ g x := by
          have := hseg 0 (le_refl 0) (by omega)
          simpa using this
        have tail := ih 0 j2 hrestnn (by simpa using hj) (fun t ht1 ht2 => by
          have := hseg (t + 1) (by omega) (by omega)
          simpa using this)
        simp only [List.map_cons, List.sum_cons]
        have expand : ((j2 + 1 - 0 : ℕ) : ℚ) * c = ((j2 - 0 : ℕ) : ℚ) * c + c := by
          rw [Nat.sub_zero, Nat.sub_zero]
          push_cast
          ring
        rw [expand]
        linarith
      | succ l2 =>
        have tail := ih l2 j2 hrestnn (by simpa using hj) (fun t ht1 ht2 => by
          have := hseg (t + 1) (by omega) (by omega)
          simpa using this)
        simp only [List.map_cons, List.sum_cons]
        have heq : ((j2 + 1 - (l2 + 1) : ℕ) : ℚ) = ((j2 - l2 : ℕ) : ℚ) := by
          congr 1
          omega
        rw [heq]
        linarith

/-- Claim C6 (amended): every returned index is a valid offset into the
conditioned input signal, for every input on which the detector succeeds —
when the window exceeds the differenced signal, unimodality of the envelope
plus the `mean + 2*std` height test still keep the plateau midpoint inside
the signal.  But the indices are expressed in the differenced signal's index
space: no re-mapping for the 1-sample differentiation shift is applied (see
the counterexample). -/
theorem claim6_indices_valid (signal : List ℚ) (fs : ℕ) (r : List ℕ)
    (h : find_r_peaks signal fs = .ok r) :
    ∀ p ∈ r, p < signal.length := by
  rw [find_r_peaks_eqC, find_r_peaksC] at h
  by_cases h1 : squared_signal signal = []
  · rw [if_pos h1] at h
    exact absurd h (by simp)
  rw [if_neg h1] at h
  by_cases h2 : window_size fs = 0
  · rw [if_pos h2] at h
    exact absurd h (by simp)
  rw [if_neg h2] at h
  by_cases h3 : min_distance fs < 1
  · rw [if_pos h3] at h
    exact absurd h (by simp)
  rw [if_neg h3] at h
  injection h with h
  intro p hp
  rw [← h] at hp
  simp only [find_peaksC] at hp
  obtain ⟨i, hi, _, rfl⟩ := mem_applyKeep _ _ p hp
  have hmemc : (find_peaks_candidates (integrated_signal signal fs)
      (envMean (integrated_signal signal fs))
      (envVar (integrated_signal signal fs))).getD i 0 ∈
      find_peaks_candidates (integrated_signal signal fs)
        (envMean (integrated_signal signal fs))
        (envVar (integrated_signal signal fs)) := by
    rw [getD_lt 0 _ i hi]
    exact List.getElem_mem hi
  have hmemlm := List.mem_of_mem_filter hmemc
  have hkl : (movAvgKernel (window_size fs)).length = window_size fs := by
    simp [movAvgKernel]
  have henvlen : (integrated_signal signal fs).length =
      max (squared_signal signal).length (window_size fs) := by
    rw [integrated_signal, convSame_length _ _ h1
      (by rw [← List.length_pos, hkl]; omega), hkl]
  have hsq := squared_length signal
  have hA1 : 1 ≤ (squared_signal signal).length := List.length_pos.mpr h1
  by_cases hcase : window_size fs ≤ (squared_signal signal).length
  · have hbounds := localMaxima_bounds _ _ hmemlm
    omega
  · push_neg at hcase
    obtain ⟨l, hl1, hl2, hrise, hdrop, hmid⟩ :=
      mem_localMaxima (integrated_signal signal fs) _ hmemlm
    have hge : l + 1 ≤ iAhead (integrated_signal signal fs)
        ((integrated_signal signal fs).getD l 0) (l + 1) :=
      le_iAhead _ _ _
    have hjle : iAhead (integrated_signal signal fs)
        ((integrated_signal signal fs).getD l 0) (l + 1) ≤
        (integrated_signal signal fs).length - 1 :=
      iAhead_le _ _ _ (by omega)
    set env := integrated_signal signal fs with henvdef
    set j := iAhead env (env.getD l 0) (l + 1) with hjdef
    have hconv : ∀ t, t < env.length → env.getD t 0 =
        (convFull (squared_signal signal) (movAvgKernel (window_size fs))).getD
          ((min (squared_signal signal).length (window_size fs) - 1) / 2 + t) 0 := by
      intro t ht
      have hcg := convSame_getD (squared_signal signal)
        (movAvgKernel (window_size fs)) t (by rw [hkl]; omega)
      rw [hkl] at hcg
      rw [henvdef, integrated_signal]
      exact hcg
    have hfactA : (min (squared_signal signal).length (window_size fs) - 1) / 2 + l <
        (squared_signal signal).length := by
      have hr : (convFull (squared_signal signal)
          (movAvgKernel (window_size fs))).getD
            ((min (squared_signal signal).length (window_size fs) - 1) / 2 + (l - 1)) 0 <
          (convFull (squared_signal signal) (movAvgKernel (window_size fs))).getD
            ((min (squared_signal signal).length (window_size fs) - 1) / 2 + (l - 1) + 1) 0 := by
        rw [show (min (squared_signal signal).length (window_size fs) - 1) / 2 + (l - 1) + 1 =
          (min (squared_signal signal).length (window_size fs) - 1) / 2 + l by omega]
        rw [← hconv (l - 1) (by omega), ← hconv l (by omega)]
        exact hrise
      have := convFull_rise _ (window_size fs) (squared_signal_nonneg signal) _ hr
      omega
    have hplat : ∀ t, l ≤ t → t < j → env.getD t 0 = env.getD l 0 := by
      intro t ht1 ht2
      rcases Nat.eq_or_lt_of_le ht1 with he | hlt
      · rw [← he]
      · exact (iAhead_const env (env.getD l 0) (l + 1) t (by omega) ht2).1
    have hfactB : window_size fs ≤
        (min (squared_signal signal).length (window_size fs) - 1) / 2 + j := by
      have hd : (convFull (squared_signal signal)
          (movAvgKernel (window_size fs))).getD
            ((min (squared_signal signal).length (window_size fs) - 1) / 2 + (j - 1) + 1) 0 <
          (convFull (squared_signal signal) (movAvgKernel (window_size fs))).getD
            ((min (squared_signal signal).length (window_size fs) - 1) / 2 + (j - 1)) 0 := by
        rw [show (min (squared_signal signal).length (window_size fs) - 1) / 2 + (j - 1) + 1 =
          (min (squared_signal signal).length (window_size fs) - 1) / 2 + j by omega]
        rw [← hconv j (by omega), ← hconv (j - 1) (by omega),
          hplat (j - 1) (by omega) (by omega)]
        exact hdrop
      have := convFull_drop _ (window_size fs) (squared_signal_nonneg signal) h1 _ hd
      omega
    have hcondT : heightCondB (envMean env) (envVar env)
        (env.getD ((l + (j - 1)) / 2) 0) = true := by
      have hc0 := List.of_mem_filter hmemc
      rw [hmid] at hc0
      exact hc0
    rw [heightCondB, Bool.and_eq_true, decide_eq_true_eq, decide_eq_true_eq] at hcondT
    have hmv : env.getD ((l + (j - 1)) / 2) 0 = env.getD l 0 :=
      hplat _ (by omega) (by omega)
    rw [hmv] at hcondT
    have henvne : env ≠ [] := by
      intro he
      rw [he] at henvlen
      simp at henvlen
      omega
    have hvnn : 0 ≤ envVar env := envVar_nonneg env
    have hsum := envVar_mul_length env henvne
    by_cases hv0 : envVar env = 0
    · have hzero : ∀ t, t < env.length → env.getD t 0 = envMean env := by
        intro t ht
        have hone := sum_map_ge_count (fun q => (q - envMean env) ^ 2)
          ((env.getD t 0 - envMean env) ^ 2) env t (t + 1)
          (fun q _ => sq_nonneg _) (by omega)
          (fun t2 ht1 ht2 => by rw [show t2 = t by omega])
        rw [hsum, hv0, zero_mul] at hone
        have hcast : ((t + 1 - t : ℕ) : ℚ) = 1 := by
          rw [show t + 1 - t = 1 by omega]
          norm_num
        rw [hcast, one_mul] at hone
        have hz : (env.getD t 0 - envMean env) ^ 2 = 0 := le_antisymm hone (sq_nonneg _)
        have := (pow_eq_zero_iff (by norm_num : (2 : ℕ) ≠ 0)).mp hz
        exact sub_eq_zero.mp this
      have e1 := hzero (l - 1) (by omega)
      have e2 := hzero l (by omega)
      rw [e1, e2] at hrise
      exact absurd hrise (lt_irrefl _)
    · have hvpos : 0 < envVar env := lt_of_le_of_ne hvnn (Ne.symm hv0)
      have hcount := sum_map_ge_count (fun q => (q - envMean env) ^ 2)
        (4 * envVar env) env l j (fun q _ => sq_nonneg _)
        (by omega) (fun t ht1 ht2 => by rw [hplat t ht1 ht2]; exact hcondT.2)
      rw [hsum] at hcount
      have h4k : 4 * (j - l) ≤ env.length := by
        have hcount2 : (4 * ((j - l : ℕ) : ℚ)) * envVar env ≤
            ((env.length : ℕ) : ℚ) * envVar env := by
          calc (4 * ((j - l : ℕ) : ℚ)) * envVar env
              = ((j - l : ℕ) : ℚ) * (4 * envVar env) := by ring
            _ ≤ envVar env * ((env.length : ℕ) : ℚ) := hcount
            _ = ((env.length : ℕ) : ℚ) * envVar env := by ring
        have hle := (mul_le_mul_right hvpos).mp hcount2
        exact_mod_cast hle
      rw [hmid]
      omega

set_option maxRecDepth 400000 in
theorem claim6_indices_valid_witness :
    find_r_peaks sig33 12 = .ok [10, 13] ∧
      ∀ p ∈ ([10, 13] : List ℕ), p < sig33.length :=
  ⟨by rw [find_r_peaks_eqC]; with_unfolding_all decide,
    claim6_indices_valid sig33 12 [10, 13]
      (by rw [find_r_peaks_eqC]; with_unfolding_all decide)⟩

/-! ## Lemmas: the zero-phase filter (claim C10) -/

theorem lfilterGo_length (bh ah : List ℚ) (K : ℕ) :
    ∀ x z, (lfilterGo bh ah K x z).length = x.length := by
  intro x
  induction x with
  | nil => intro z; rfl
  | cons xn rest ih =>
    intro z
    simp only [lfilterGo, List.length_cons]
    rw [ih]

theorem getD_zero_of_all (l : List ℚ) (h : ∀ q ∈ l, q = 0) (i : ℕ) :
    l.getD i 0 = 0 := by
  by_cases hi : i < l.length
  · rw [getD_lt 0 l i hi]
    exact h _ (List.getElem_mem hi)
  · rw [List.getD_eq_getElem?_getD, List.getElem?_eq_none (by omega)]
    rfl

theorem lfilterGo_zero (bh ah : List ℚ) (K : ℕ) :
    ∀ x z, (∀ q ∈ x, q = 0) → (∀ q ∈ z, q = 0) →
      ∀ q ∈ lfilterGo bh ah K x z, q = 0 := by
  intro x
  induction x with
  | nil => intro z _ _ q hq; simp [lfilterGo] at hq
  | cons xn rest ih =>
    intro z hx hz q hq
    have hxn : xn = 0 := hx xn (List.mem_cons_self xn rest)
    have hy : bh.getD 0 0 * xn + z.getD 0 0 = 0 := by
      rw [hxn, getD_zero_of_all z hz 0]
      ring
    simp only [lfilterGo] at hq
    rcases List.mem_cons.mp hq with rfl | hq2
    · exact hy
    · refine ih _ (fun q' hq' => hx q' (List.mem_cons_of_mem xn hq')) ?_ q hq2
      intro q' hq'
      obtain ⟨t, _, rfl⟩ := List.mem_map.mp hq'
      rw [hxn, getD_zero_of_all z hz (t + 1), getD_zero_of_all z hz 0]
      ring

theorem lfilter_length (b a x zi : List ℚ) : (lfilter b a x zi).length = x.length := by
  rw [lfilter]
  exact lfilterGo_length _ _ _ x zi

theorem lfilter_zero (b a x zi : List ℚ) (hx : ∀ q ∈ x, q = 0)
    (hz : ∀ q ∈ zi, q = 0) : ∀ q ∈ lfilter b a x zi, q = 0 := by
  rw [lfilter]
  exact lfilterGo_zero _ _ _ x zi hx hz

theorem oddExt_length (x : List ℚ) (p : ℕ) :
    (oddExt x p).length = p + x.length + p := by
  simp [oddExt]
  omega

theorem oddExt_zero (x : List ℚ) (p : ℕ) (hx : ∀ q ∈ x, q = 0) :
    ∀ q ∈ oddExt x p, q = 0 := by
  intro q hq
  rw [oddExt, List.append_assoc] at hq
  rcases List.mem_append.mp hq with h | h
  · obtain ⟨t, _, rfl⟩ := List.mem_map.mp h
    rw [getD_zero_of_all x hx 0, getD_zero_of_all x hx (p - t)]
    ring
  · rcases List.mem_append.mp h with h2 | h2
    · exact hx q h2
    · obtain ⟨t, _, rfl⟩ := List.mem_map.mp h2
      rw [getD_zero_of_all x hx (x.length - 1), getD_zero_of_all x hx (x.length - 2 - t)]
      ring

/-- Claim C10: for every coefficient vectors (in particular the ones `butter`
designs for valid cutoffs), unit initial state, and signal long enough for the
zero-phase padding, `filter_signal` succeeds, preserves the signal length, and
maps the all-zero signal to the all-zero output. -/
theorem claim10_zero_phase_filter (b a ziUnit x : List ℚ)
    (hlen : 3 * max b.length a.length < x.length) :
    ∃ y, filter_signal b a ziUnit x = .ok y ∧ y.length = x.length ∧
      ((∀ q ∈ x, q = 0) → ∀ q ∈ y, q = 0) := by
  rw [filter_signal, filtfilt, if_neg (by omega)]
  refine ⟨_, rfl, ?_, ?_⟩
  · simp only [List.length_take, List.length_drop, List.length_reverse,
      lfilter_length, oddExt_length]
    omega
  · intro hx q hq
    have hext := oddExt_zero x (3 * max b.length a.length) hx
    have hzi1 : ∀ q ∈ ziUnit.map (fun c =>
        c * (oddExt x (3 * max b.length a.length)).getD 0 0), q = 0 := by
      intro q hq
      obtain ⟨c, _, rfl⟩ := List.mem_map.mp hq
      rw [getD_zero_of_all _ hext 0]
      ring
    have hy1 := lfilter_zero b a _ _ hext hzi1
    have hy1r : ∀ q ∈ (lfilter b a (oddExt x (3 * max b.length a.length))
        (ziUnit.map (fun c => c * (oddExt x (3 * max b.length a.length)).getD 0 0))).reverse,
        q = 0 := by
      intro q hq
      exact hy1 q (List.mem_reverse.mp hq)
    have hzi2 : ∀ q ∈ ziUnit.map (fun c =>
        c * ((lfilter b a (oddExt x (3 * max b.length a.length))
          (ziUnit.map (fun c => c * (oddExt x (3 * max b.length a.length)).getD 0 0))).reverse).getD 0 0),
        q = 0 := by
      intro q hq
      obtain ⟨c, _, rfl⟩ := List.mem_map.mp hq
      rw [getD_zero_of_all _ hy1r 0]
      ring
    have hy2 := lfilter_zero b a _ _ hy1r hzi2
    have hq1 := List.mem_of_mem_take hq
    have hq2 := List.mem_of_mem_drop hq1
    exact hy2 q (List.mem_reverse.mp hq2)

theorem claim10_zero_phase_filter_witness :
    3 * max ([(1 : ℚ)] : List ℚ).length ([(1 : ℚ)] : List ℚ).length <
        (List.replicate 4 (0 : ℚ)).length ∧
      ∃ y, filter_signal [(1 : ℚ)] [(1 : ℚ)] [] (List.replicate 4 (0 : ℚ)) = .ok y ∧
        y.length = (List.replicate 4 (0 : ℚ)).length ∧
        ((∀ q ∈ List.replicate 4 (0 : ℚ), q = 0) → ∀ q ∈ y, q = 0) :=
  ⟨by decide,
    claim10_zero_phase_filter [(1 : ℚ)] [(1 : ℚ)] [] (List.replicate 4 (0 : ℚ))
      (by decide)⟩

end ECG
